import Mathlib

/-
Verification development for the wheresmyprompt repository's section-aware
Markdown document model and multi-word fuzzy search engine
(internal/prompt/prompt.go, internal/prompt/write.go).

Strings are embedded as lists of characters (`Str`); Go's byte-oriented
operations on the ASCII data relevant here coincide with the character-level
operations used below.  The third-party fuzzy matcher
(github.com/lithammer/fuzzysearch/fuzzy.RankFindNormalizedFold) is not part of
this repository; it is abstracted as a parameter `fz : Str → Str → Option Nat`
returning the best approximate-match distance of a word against a single
candidate string, or none when the library reports no match.  All theorems
about the search engine hold for every such matcher.
-/

namespace prompt

/-- Character list model of Go strings. -/
abbrev Str := List Char

/-- ASCII whitespace, as trimmed by Go's strings.TrimSpace / split by
strings.Fields (the Unicode space classes beyond ASCII are not modelled; no
claim depends on them). -/
def isSpace (c : Char) : Bool :=
  c == ' ' || c == '\t' || c == '\n' || c == '\x0b' || c == '\x0c' || c == '\r'

/-- Leading-whitespace trim (left half of strings.TrimSpace). -/
def trimLeft (s : Str) : Str := s.dropWhile isSpace

/-- Trailing-whitespace trim (right half of strings.TrimSpace). -/
def trimRight (s : Str) : Str := (s.reverse.dropWhile isSpace).reverse

/-- Go strings.TrimSpace: drop leading and trailing whitespace. -/
def trimSpace (s : Str) : Str := trimRight (trimLeft s)

/-- Go strings.ToLower, character by character. -/
def toLower (s : Str) : Str := s.map Char.toLower

/-- Accumulator-style splitter behind `fields`; `acc` holds the current word
reversed. -/
def fieldsAux : Str → Str → List Str
  | [], acc => if acc.isEmpty then [] else [acc.reverse]
  | c :: cs, acc =>
    if isSpace c then
      if acc.isEmpty then fieldsAux cs [] else acc.reverse :: fieldsAux cs []
    else fieldsAux cs (c :: acc)

/-- Go strings.Fields: the maximal runs of non-whitespace characters. -/
def fields (s : Str) : List Str := fieldsAux s []

/-- Go strings.Contains: `sub` occurs as a contiguous substring of `s`. -/
def containsSub (s sub : Str) : Bool :=
  s.tails.any (fun t => sub.isPrefixOf t)

/-- Go strings.Split with a one-character separator; always returns at least
one (possibly empty) piece. -/
def splitOnChar (sep : Char) : Str → List Str
  | [] => [[]]
  | c :: cs =>
    if c == sep then [] :: splitOnChar sep cs
    else
      match splitOnChar sep cs with
      | [] => [[c]]
      | w :: ws => (c :: w) :: ws

/-- bufio.ScanLines drops one trailing carriage return from each line. -/
def dropCR (l : Str) : Str :=
  if l.getLast? = some '\r' then l.dropLast else l

/-- The lines bufio.NewScanner(strings.NewReader content) produces: split on
newline, no trailing empty token after a final newline, each line stripped of
one trailing CR. -/
def splitLines (content : Str) : List Str :=
  (if (splitOnChar '\n' content).getLast? = some [] then
      (splitOnChar '\n' content).dropLast
    else splitOnChar '\n' content).map dropCR

/-- prompt.go: a single LLM prompt (one body line) with the section it
belongs to. -/
structure Prompt where
  Content : Str
  Section : Str
deriving DecidableEq, Repr

/-- prompt.go: a heading (any depth) and its associated body lines; Headings
is ordered from the top-level heading to the deepest sub-heading. -/
structure Section where
  Headings : List Str
  Lines : List Str
deriving DecidableEq, Repr

/-- prompt.go: structured data for all prompts. -/
structure PromptData where
  Sections : List Section
deriving DecidableEq, Repr

/-- The counting loop of parseHeading: how many '#' characters start the
line. -/
def countLeadingHashes : Str → Nat
  | [] => 0
  | c :: rest => if c = '#' then countLeadingHashes rest + 1 else 0

/-- prompt.go parseHeading: heading level and trimmed text, or (0, "") for a
non-heading line.  The line is trimmed first; it must start with '#'s
immediately followed by a space (Go's bounds check `len(line) > level` is
subsumed by the match on the dropped remainder). -/
def parseHeading (line : Str) : Nat × Str :=
  if ['#'].isPrefixOf (trimSpace line) then
    match (trimSpace line).drop (countLeadingHashes (trimSpace line)) with
    | ' ' :: rest => (countLeadingHashes (trimSpace line), trimSpace (' ' :: rest))
    | _ => (0, [])
  else (0, [])

/-- The heading-stack update of parseMarkdownIntoSections: extend the stack
when it has fewer than `level` entries, otherwise replace at index level-1
and truncate deeper levels. -/
def updateStack (st : List Str) (level : Nat) (t : Str) : List Str :=
  if st.length < level then st ++ [t] else st.take (level - 1) ++ [t]

/-- The loop state of parseMarkdownIntoSections: emitted sections, the
section being accumulated, and the heading-path stack. -/
structure ParseState where
  sections : List Section
  current : Section
  headingStack : List Str
deriving DecidableEq, Repr

/-- One iteration of the scanner loop in parseMarkdownIntoSections: on a
heading line, update the stack, save the previous section if it has lines,
and open a new section bound to a copy of the stack; otherwise append the
line verbatim to the current section. -/
def parseStep (st : ParseState) (line : Str) : ParseState :=
  if (parseHeading line).1 > 0 then
    ⟨(if st.current.Lines.isEmpty then st.sections else st.sections ++ [st.current]),
      ⟨updateStack st.headingStack (parseHeading line).1 (parseHeading line).2, []⟩,
      updateStack st.headingStack (parseHeading line).1 (parseHeading line).2⟩
  else
    ⟨st.sections, ⟨st.current.Headings, st.current.Lines ++ [line]⟩, st.headingStack⟩

/-- The flush after the scanner loop: save the last section only if it
accumulated at least one line. -/
def parseFinish (st : ParseState) : List Section :=
  if st.current.Lines.isEmpty then st.sections else st.sections ++ [st.current]

/-- prompt.go parseMarkdownIntoSections: scan the content line by line,
grouping body lines under the current heading path.  The Go version also
returns scanner.Err(), which is always nil for a string reader. -/
def parseMarkdownIntoSections (content : Str) : List Section :=
  parseFinish ((splitLines content).foldl parseStep ⟨[], ⟨[], []⟩, []⟩)

/-- The successive loop states of the scanner loop: the state before each
line of `lines` when iterating `parseStep` from `st`, with the final state
last.  Proof scaffolding for relating an emitted section to the parse-time
stack of the heading that opened it. -/
def statesAux : ParseState → List Str → List ParseState
  | st, [] => [st]
  | st, l :: ls => st :: statesAux (parseStep st l) ls

/-- The trace of parseMarkdownIntoSections on `content`:
`(parseTrace content)[i]?` is the loop state in which line i of the input is
processed (the heading stack it holds is the open heading path at that
moment). -/
def parseTrace (content : Str) : List ParseState :=
  statesAux ⟨[], ⟨[], []⟩, []⟩ (splitLines content)

/-- prompt.go gatherPromptData. -/
def gatherPromptData (sections : List Section) : PromptData :=
  ⟨sections⟩

/-- The inner filter each search-pool helper applies: skip lines that are
empty after trimming, tag the rest with the given section title. -/
def nonBlankPrompts (lines : List Str) (tag : Str) : List Prompt :=
  (lines.filter (fun line => !(trimSpace line).isEmpty)).map (fun line => ⟨line, tag⟩)

/-- prompt.go searchPoolBySectionPath: sections whose headings after the
document title (index 0) equal the nested path element-wise. -/
def searchPoolBySectionPath (data : PromptData) (sectionPath : List Str) : List Prompt :=
  data.Sections.flatMap (fun sec =>
    if 2 ≤ sec.Headings.length ∧ sec.Headings.drop 1 = sectionPath then
      nonBlankPrompts sec.Lines (sec.Headings.getLastD [])
    else [])

/-- prompt.go searchPoolBySingleSection: sections whose deepest heading
equals the given name; each pooled line is tagged with that name. -/
def searchPoolBySingleSection (data : PromptData) (sectionName : Str) : List Prompt :=
  data.Sections.flatMap (fun sec =>
    if sec.Headings ≠ [] ∧ sec.Headings.getLastD [] = sectionName then
      nonBlankPrompts sec.Lines sectionName
    else [])

/-- prompt.go searchPoolByParentSection: sections in which the name appears
among the non-deepest headings (the Go loop over Headings up to len-1 with a
break is membership in the list without its last element); lines are tagged
with the section's own deepest heading. -/
def searchPoolByParentSection (data : PromptData) (sectionName : Str) : List Prompt :=
  data.Sections.flatMap (fun sec =>
    if 1 < sec.Headings.length ∧ sectionName ∈ sec.Headings.dropLast then
      nonBlankPrompts sec.Lines (sec.Headings.getLastD [])
    else [])

/-- prompt.go searchPoolAllPrompts: every section with a heading contributes
its non-blank lines, tagged with its deepest heading. -/
def searchPoolAllPrompts (data : PromptData) : List Prompt :=
  data.Sections.flatMap (fun sec =>
    if sec.Headings ≠ [] then nonBlankPrompts sec.Lines (sec.Headings.getLastD [])
    else [])

/-- prompt.go generateSearchPool.  The Go local `sectionPath` (the selector
split on commas with each component trimmed) is inlined at each use site. -/
def generateSearchPool (data : PromptData) (sectionName : Str) : List Prompt :=
  if sectionName = [] then searchPoolAllPrompts data
  else if 1 < ((splitOnChar ',' sectionName).map trimSpace).length then
    searchPoolBySectionPath data ((splitOnChar ',' sectionName).map trimSpace)
  else if searchPoolBySingleSection data (((splitOnChar ',' sectionName).map trimSpace).headD []) ≠ [] then
    searchPoolBySingleSection data (((splitOnChar ',' sectionName).map trimSpace).headD [])
  else searchPoolByParentSection data (((splitOnChar ',' sectionName).map trimSpace).headD [])

/-- Modelled from the spec's words for the single-name (comma-free) selector
mode of pool selection, to be compared with `generateSearchPool`: first the
non-blank lines of every section whose deepest heading equals the selector;
if and only if that yields at least one line it is the pool, otherwise the
non-blank lines of every section in which the selector appears among the
non-deepest headings, tagged with each section's own deepest heading.  The
selector is used exactly as given. -/
def selectPoolSingleSpec (data : PromptData) (sel : Str) : List Prompt :=
  if data.Sections.flatMap (fun sec =>
      if sec.Headings ≠ [] ∧ sec.Headings.getLastD [] = sel then
        nonBlankPrompts sec.Lines (sec.Headings.getLastD [])
      else []) ≠ [] then
    data.Sections.flatMap (fun sec =>
      if sec.Headings ≠ [] ∧ sec.Headings.getLastD [] = sel then
        nonBlankPrompts sec.Lines (sec.Headings.getLastD [])
      else [])
  else
    data.Sections.flatMap (fun sec =>
      if sel ∈ sec.Headings.dropLast then
        nonBlankPrompts sec.Lines (sec.Headings.getLastD [])
      else [])

/-- prompt.go SearchPrompts' MatchResult: content, accumulated distance
(lower is better) and pool index (recorded but unused by the sort). -/
structure MatchResult where
  Content : Str
  Score : Nat
  Index : Nat
deriving DecidableEq, Repr

/-- The per-prompt word loop of SearchPrompts: accumulated
(totalDistance, matchedWords) over the query words.  A literal substring hit
contributes distance 1; otherwise the abstract fuzzy matcher's best distance
counts when it is below the acceptance threshold 100. -/
def scanWords (fz : Str → Str → Option Nat) (content : Str) : List Str → Nat × Nat
  | [] => (0, 0)
  | w :: ws =>
    if containsSub content w then
      ((scanWords fz content ws).1 + 1, (scanWords fz content ws).2 + 1)
    else
      match fz w content with
      | some d =>
        if d < 100 then ((scanWords fz content ws).1 + d, (scanWords fz content ws).2 + 1)
        else scanWords fz content ws
      | none => scanWords fz content ws

/-- The qualification pass of SearchPrompts: a pool entry becomes a
MatchResult exactly when every query word matched it. -/
def searchMatches (fz : Str → Str → Option Nat) (searchPool : List Prompt)
    (queryWords : List Str) : List MatchResult :=
  searchPool.enum.filterMap (fun ip =>
    if (scanWords fz (toLower ip.2.Content) queryWords).2 = queryWords.length then
      some ⟨ip.2.Content, (scanWords fz (toLower ip.2.Content) queryWords).1, ip.1⟩
    else none)

/-- Insert a MatchResult into a list ordered by ascending Score. -/
def insertScore (m : MatchResult) : List MatchResult → List MatchResult
  | [] => [m]
  | x :: xs => if m.Score < x.Score then m :: x :: xs else x :: insertScore m xs

/-- The ordering pass of SearchPrompts, Go `sort.Slice(matches, by Score)`,
modelled as an insertion sort on Score (what Go runs for short slices).
Go's sort.Slice is documented as not guaranteed stable; no theorem below
relies on how this model orders equal scores. -/
def insertionSortByScore : List MatchResult → List MatchResult
  | [] => []
  | x :: xs => insertScore x (insertionSortByScore xs)

/-- The body of prompt.go SearchPrompts after pool construction: empty pool
short-circuit, empty-query passthrough, word split, qualification and
ordering.  Factored over the pool so that properties quantified over pools
can be stated directly. -/
def searchInPool (fz : Str → Str → Option Nat) (searchPool : List Prompt)
    (query : Str) : List Str :=
  if searchPool.isEmpty then []
  else if query.isEmpty then searchPool.map (fun p => p.Content)
  else if (fields (toLower query)).isEmpty then []
  else (insertionSortByScore (searchMatches fz searchPool (fields (toLower query)))).map
    (fun m => m.Content)

/-- prompt.go SearchPrompts: build the pool for the section selector, then
run the ranked multi-word search. -/
def SearchPrompts (fz : Str → Str → Option Nat) (data : PromptData)
    (query sectionName : Str) : List Str :=
  searchInPool fz (generateSearchPool data sectionName) query

/-- prompt.go FindAllMatches. -/
def FindAllMatches (fz : Str → Str → Option Nat) (data : PromptData)
    (query sectionName : Str) : List Str :=
  SearchPrompts fz data query sectionName

/-- prompt.go FindBestMatch: top result or the empty string. -/
def FindBestMatch (fz : Str → Str → Option Nat) (data : PromptData)
    (query sectionName : Str) : Str :=
  (SearchPrompts fz data query sectionName).headD []

/-- write.go writeSectionHeader, one heading line: '#' repeated depth times,
one space, the heading text (the trailing newline is the line terminator and
is emitted separately). -/
def headerLine (depth : Nat) (heading : Str) : Str :=
  List.replicate depth '#' ++ [' '] ++ heading

/-- write.go writeSectionHeader: each heading of the section serialized at
'#'-repetition equal to nesting depth, newline-terminated. -/
def writeSectionHeader (sec : Section) : Str :=
  sec.Headings.enum.flatMap (fun ih => headerLine (ih.1 + 1) ih.2 ++ ['\n'])

/-- A fuzzy matcher reporting no approximate match for anything; used to
instantiate theorems quantified over the abstract matcher. -/
def fzNone : Str → Str → Option Nat := fun _ _ => none

theorem parseStep_mem_sections (st : ParseState) (line : Str) (sec : Section)
    (h : sec ∈ (parseStep st line).sections) :
    sec ∈ st.sections ∨ (sec = st.current ∧ st.current.Lines ≠ []) := by
  unfold parseStep at h
  by_cases hl : (parseHeading line).1 > 0
  · rw [if_pos hl] at h
    dsimp only at h
    by_cases hcur : st.current.Lines.isEmpty
    · rw [if_pos hcur] at h
      exact Or.inl h
    · rw [if_neg hcur] at h
      rcases List.mem_append.mp h with h1 | h2
      · exact Or.inl h1
      · refine Or.inr ⟨by simpa using h2, fun hnil => hcur ?_⟩
        rw [hnil]
        rfl
  · rw [if_neg hl] at h
    exact Or.inl h

theorem parseStep_current_headings (st : ParseState) (line : Str) :
    (parseStep st line).current.Headings = st.current.Headings ∨
      (1 ≤ (parseHeading line).1 ∧
        (parseStep st line).current.Headings =
          updateStack st.headingStack (parseHeading line).1 (parseHeading line).2) := by
  unfold parseStep
  by_cases hl : (parseHeading line).1 > 0
  · rw [if_pos hl]
    exact Or.inr ⟨hl, rfl⟩
  · rw [if_neg hl]
    exact Or.inl rfl

theorem foldl_parseStep_lines_ne_nil (lines : List Str) :
    ∀ st : ParseState, (∀ sec ∈ st.sections, sec.Lines ≠ []) →
      ∀ sec ∈ (lines.foldl parseStep st).sections, sec.Lines ≠ [] := by
  induction lines with
  | nil => intro st h; simpa using h
  | cons l ls ih =>
    intro st h
    rw [List.foldl_cons]
    refine ih (parseStep st l) ?_
    intro sec hsec
    rcases parseStep_mem_sections st l sec hsec with h1 | ⟨rfl, h2⟩
    · exact h sec h1
    · exact h2

theorem parseFinish_lines_ne_nil (st : ParseState)
    (h : ∀ sec ∈ st.sections, sec.Lines ≠ []) :
    ∀ sec ∈ parseFinish st, sec.Lines ≠ [] := by
  intro sec hsec
  unfold parseFinish at hsec
  by_cases hcur : st.current.Lines.isEmpty
  · rw [if_pos hcur] at hsec
    exact h sec hsec
  · rw [if_neg hcur] at hsec
    rcases List.mem_append.mp hsec with h1 | h2
    · exact h sec h1
    · have hc : sec = st.current := by simpa using h2
      subst hc
      intro hnil
      apply hcur
      rw [hnil]
      rfl

/-- C4: every Section in the parser's result has at least one line; a
section that accumulated zero lines before the next heading or end of input
is never appended to the result.  In particular, for the input
"# Title\n## A\n## B\nline\n" no Section for heading A appears, and the
Section for B with lines ["line"] does. -/
theorem C4_no_empty_sections :
    (∀ content : Str, ∀ sec ∈ parseMarkdownIntoSections content, sec.Lines ≠ []) ∧
      parseMarkdownIntoSections ("# Title\n## A\n## B\nline\n").data =
        [⟨[("Title").data, ("B").data], [("line").data]⟩] ∧
      (∀ sec ∈ parseMarkdownIntoSections ("# Title\n## A\n## B\nline\n").data,
        ("A").data ∉ sec.Headings) := by
  refine ⟨?_, by decide, by decide⟩
  intro content sec hsec
  exact parseFinish_lines_ne_nil _
    (foldl_parseStep_lines_ne_nil (splitLines content) ⟨[], ⟨[], []⟩, []⟩ (by simp)) sec hsec

theorem updateStack_length (st : List Str) (level : Nat) (t : Str)
    (h : 1 ≤ level) : (updateStack st level t).length = min level (st.length + 1) := by
  unfold updateStack
  by_cases hlt : st.length < level
  · rw [if_pos hlt]
    have : st.length + 1 ≤ level := hlt
    simp [Nat.min_eq_right this]
  · rw [if_neg hlt]
    have hle : level ≤ st.length := Nat.le_of_not_lt hlt
    have h1 : level - 1 ≤ st.length := le_trans (Nat.sub_le level 1) hle
    have h2 : level ≤ st.length + 1 := le_trans hle (Nat.le_succ _)
    simp [List.length_take, Nat.min_eq_left h1, Nat.min_eq_left h2]
    omega

theorem updateStack_no_skip (st : List Str) (level : Nat) (t : Str)
    (h : level ≤ st.length + 1) : updateStack st level t = st.take (level - 1) ++ [t] := by
  unfold updateStack
  by_cases hlt : st.length < level
  · rw [if_pos hlt]
    have heq : level - 1 = st.length := by omega
    rw [heq, List.take_length]
  · rw [if_neg hlt]

theorem foldl_parseStep_opened (lines : List Str) :
    ∀ st0 : ParseState,
      (∀ sec ∈ (lines.foldl parseStep st0).sections,
        sec ∈ st0.sections ∨ sec.Headings = st0.current.Headings ∨
          ∃ (i : Nat) (line : Str) (st : ParseState), lines[i]? = some line ∧
            (statesAux st0 lines)[i]? = some st ∧
            1 ≤ (parseHeading line).1 ∧
            sec.Headings =
              updateStack st.headingStack (parseHeading line).1 (parseHeading line).2) ∧
      ((lines.foldl parseStep st0).current.Headings = st0.current.Headings ∨
        ∃ (i : Nat) (line : Str) (st : ParseState), lines[i]? = some line ∧
          (statesAux st0 lines)[i]? = some st ∧
          1 ≤ (parseHeading line).1 ∧
          (lines.foldl parseStep st0).current.Headings =
            updateStack st.headingStack (parseHeading line).1 (parseHeading line).2) := by
  induction lines with
  | nil =>
    intro st0
    exact ⟨fun sec hsec => Or.inl hsec, Or.inl rfl⟩
  | cons l ls ih =>
    intro st0
    rw [List.foldl_cons]
    have hstates : statesAux st0 (l :: ls) = st0 :: statesAux (parseStep st0 l) ls := rfl
    obtain ⟨ihs, ihc⟩ := ih (parseStep st0 l)
    have hlift : ∀ h : List Str,
        (∃ (i : Nat) (line : Str) (st : ParseState), ls[i]? = some line ∧
          (statesAux (parseStep st0 l) ls)[i]? = some st ∧
          1 ≤ (parseHeading line).1 ∧
          h = updateStack st.headingStack (parseHeading line).1 (parseHeading line).2) →
        ∃ (i : Nat) (line : Str) (st : ParseState), (l :: ls)[i]? = some line ∧
          (statesAux st0 (l :: ls))[i]? = some st ∧
          1 ≤ (parseHeading line).1 ∧
          h = updateStack st.headingStack (parseHeading line).1 (parseHeading line).2 := by
      rintro h ⟨i, line, st, h1, h2, h3, h4⟩
      refine ⟨i + 1, line, st, by simpa using h1, ?_, h3, h4⟩
      rw [hstates]
      simpa using h2
    constructor
    · intro sec hsec
      rcases ihs sec hsec with h1 | h2 | h3
      · rcases parseStep_mem_sections st0 l sec h1 with h4 | ⟨rfl, _⟩
        · exact Or.inl h4
        · exact Or.inr (Or.inl rfl)
      · rcases parseStep_current_headings st0 l with h5 | ⟨hlev, h5⟩
        · exact Or.inr (Or.inl (h2.trans h5))
        · refine Or.inr (Or.inr ⟨0, l, st0, by simp, ?_, hlev, h2.trans h5⟩)
          rw [hstates]
          simp
      · exact Or.inr (Or.inr (hlift sec.Headings h3))
    · rcases ihc with h1 | h2
      · rcases parseStep_current_headings st0 l with h5 | ⟨hlev, h5⟩
        · exact Or.inl (h1.trans h5)
        · refine Or.inr ⟨0, l, st0, by simp, ?_, hlev, h1.trans h5⟩
          rw [hstates]
          simp
      · exact Or.inr (hlift _ h2)

/-- C3 (amended): every Section emitted by the parser either was opened
before any heading of the input (its headings sequence is empty), or was
opened by an actual heading line of the input: at some index i, line i of
the scanned input is a heading line, and the Section's headings equal the
stack update of the parse state reached before line i (its open heading
path).  With L the heading's level and st that path, the headings length is
min(L, length st + 1); whenever the heading skips no levels (L at most
length st + 1) the length equals L and the earlier entries are the first
L-1 entries of st. -/
theorem C3_heading_path_amended (content : Str) (sec : Section)
    (hmem : sec ∈ parseMarkdownIntoSections content) :
    sec.Headings = [] ∨
      ∃ (i : Nat) (line : Str) (st : ParseState), (splitLines content)[i]? = some line ∧
        (parseTrace content)[i]? = some st ∧
        1 ≤ (parseHeading line).1 ∧
        sec.Headings =
          updateStack st.headingStack (parseHeading line).1 (parseHeading line).2 ∧
        sec.Headings.length =
          min (parseHeading line).1 (st.headingStack.length + 1) ∧
        ((parseHeading line).1 ≤ st.headingStack.length + 1 →
          sec.Headings.length = (parseHeading line).1 ∧
          sec.Headings = st.headingStack.take ((parseHeading line).1 - 1) ++
            [(parseHeading line).2]) := by
  obtain ⟨hsecs, hcur⟩ := foldl_parseStep_opened (splitLines content) ⟨[], ⟨[], []⟩, []⟩
  have hQ : sec.Headings = [] ∨
      ∃ (i : Nat) (line : Str) (st : ParseState), (splitLines content)[i]? = some line ∧
        (parseTrace content)[i]? = some st ∧
        1 ≤ (parseHeading line).1 ∧
        sec.Headings =
          updateStack st.headingStack (parseHeading line).1 (parseHeading line).2 := by
    unfold parseMarkdownIntoSections parseFinish at hmem
    by_cases hc :
        ((splitLines content).foldl parseStep ⟨[], ⟨[], []⟩, []⟩).current.Lines.isEmpty
    · rw [if_pos hc] at hmem
      rcases hsecs sec hmem with h1 | h2 | h3
      · simp at h1
      · exact Or.inl h2
      · exact Or.inr h3
    · rw [if_neg hc] at hmem
      rcases List.mem_append.mp hmem with h1 | h2
      · rcases hsecs sec h1 with h4 | h5 | h6
        · simp at h4
        · exact Or.inl h5
        · exact Or.inr h6
      · have hc2 :
            sec = ((splitLines content).foldl parseStep ⟨[], ⟨[], []⟩, []⟩).current := by
          simpa using h2
        rw [hc2]
        rcases hcur with h4 | h5
        · exact Or.inl h4
        · exact Or.inr h5
  rcases hQ with h0 | ⟨i, line, st, h1, h2, h3, h4⟩
  · exact Or.inl h0
  · refine Or.inr ⟨i, line, st, h1, h2, h3, h4, ?_, ?_⟩
    · rw [h4]
      exact updateStack_length _ _ _ h3
    · intro hle
      constructor
      · rw [h4, updateStack_length _ _ _ h3, Nat.min_eq_left hle]
      · rw [h4, updateStack_no_skip _ _ _ hle]

/-- C3 as stated fails on the code: for the input "# a\n### b\nx\n" the only
emitted Section is opened by the heading line "### b" of level 3, yet its
headings sequence is ["a", "b"] of length 2 (the stack-extension step appends
a single entry even when the heading level jumps by more than one). -/
theorem C3_counterexample :
    parseMarkdownIntoSections ("# a\n### b\nx\n").data =
        [⟨[("a").data, ("b").data], [("x").data]⟩] ∧
      parseHeading ("### b").data = (3, ("b").data) ∧
      ([("a").data, ("b").data] : List Str).length ≠ 3 := by
  refine ⟨by decide, by decide, by decide⟩

/-- C7: for every non-empty pool, the empty-string query returns exactly
every pool entry's content, in the original pool order, with result length
equal to the pool length. -/
theorem C7_empty_query_passthrough (fz : Str → Str → Option Nat)
    (searchPool : List Prompt) (hpool : searchPool ≠ []) :
    searchInPool fz searchPool [] = searchPool.map (fun p => p.Content) ∧
      (searchInPool fz searchPool []).length = searchPool.length := by
  cases searchPool with
  | nil => exact absurd rfl hpool
  | cons p ps =>
    refine ⟨rfl, ?_⟩
    show ((p :: ps).map (fun p => p.Content)).length = _
    rw [List.length_map]

theorem isSpace_toLower (c : Char) (h : isSpace c = true) :
    isSpace c.toLower = true := by
  simp only [isSpace, Bool.or_eq_true, beq_iff_eq] at h
  rcases h with ((((h | h) | h) | h) | h) | h <;> subst h <;> decide

theorem fieldsAux_eq_nil (s : Str) (h : ∀ c ∈ s, isSpace c = true) :
    fieldsAux s [] = [] := by
  induction s with
  | nil => rfl
  | cons c cs ih =>
    have hc : isSpace c = true := h c (List.mem_cons_self c cs)
    unfold fieldsAux
    rw [if_pos hc]
    simpa using ih (fun a ha => h a (List.mem_cons_of_mem c ha))

/-- C10: a non-empty query consisting only of whitespace (splitting yields
zero words) makes search return the empty sequence, not the full-pool
passthrough and not an error. -/
theorem C10_whitespace_query (fz : Str → Str → Option Nat)
    (searchPool : List Prompt) (query : Str) (hq : query ≠ [])
    (hsp : ∀ c ∈ query, isSpace c = true) :
    searchInPool fz searchPool query = [] := by
  have hfields : fields (toLower query) = [] := by
    refine fieldsAux_eq_nil (toLower query) ?_
    intro c hc
    rcases List.mem_map.mp hc with ⟨c', hc', rfl⟩
    exact isSpace_toLower c' (hsp c' hc')
  have hqe : query.isEmpty = false := by
    cases query with
    | nil => exact absurd rfl hq
    | cons c cs => rfl
  have hfe : (fields (toLower query)).isEmpty = true := by rw [hfields]; rfl
  unfold searchInPool
  rw [hqe, hfe]
  simp

theorem mem_insertScore (m x : MatchResult) (l : List MatchResult)
    (h : x ∈ insertScore m l) : x = m ∨ x ∈ l := by
  induction l with
  | nil => exact Or.inl (by simpa [insertScore] using h)
  | cons a as ih =>
    unfold insertScore at h
    by_cases hlt : m.Score < a.Score
    · rw [if_pos hlt] at h
      rcases List.mem_cons.mp h with h1 | h2
      · exact Or.inl h1
      · exact Or.inr h2
    · rw [if_neg hlt] at h
      rcases List.mem_cons.mp h with h1 | h2
      · exact Or.inr (h1 ▸ List.mem_cons_self a as)
      · rcases ih h2 with h3 | h4
        · exact Or.inl h3
        · exact Or.inr (List.mem_cons_of_mem a h4)

theorem mem_insertionSortByScore (x : MatchResult) (l : List MatchResult)
    (h : x ∈ insertionSortByScore l) : x ∈ l := by
  induction l with
  | nil => simp [insertionSortByScore] at h
  | cons a as ih =>
    unfold insertionSortByScore at h
    rcases mem_insertScore a x (insertionSortByScore as) h with h1 | h2
    · exact h1 ▸ List.mem_cons_self a as
    · exact List.mem_cons_of_mem a (ih h2)

theorem mem_of_mem_enumFrom {α : Type _} (l : List α) :
    ∀ (n i : Nat) (a : α), (i, a) ∈ l.enumFrom n → a ∈ l := by
  induction l with
  | nil => intro n i a h; simp at h
  | cons b bs ih =>
    intro n i a h
    rw [List.enumFrom] at h
    rcases List.mem_cons.mp h with h1 | h2
    · have : a = b := congrArg Prod.snd h1
      exact this ▸ List.mem_cons_self b bs
    · exact List.mem_cons_of_mem b (ih (n + 1) i a h2)

theorem scanWords_matched_le (fz : Str → Str → Option Nat) (content : Str) :
    ∀ ws : List Str, (scanWords fz content ws).2 ≤ ws.length := by
  intro ws
  induction ws with
  | nil => exact Nat.le_refl 0
  | cons w rest ih =>
    unfold scanWords
    by_cases hc : containsSub content w
    · rw [if_pos hc]
      exact Nat.succ_le_succ ih
    · rw [if_neg hc]
      cases hf : fz w content with
      | none => exact le_trans ih (Nat.le_succ _)
      | some d =>
        dsimp only
        by_cases hd : d < 100
        · rw [if_pos hd]
          exact Nat.succ_le_succ ih
        · rw [if_neg hd]
          exact le_trans ih (Nat.le_succ _)

theorem scanWords_all_matched (fz : Str → Str → Option Nat) (content : Str) :
    ∀ ws : List Str, (scanWords fz content ws).2 = ws.length →
      ∀ w ∈ ws, containsSub content w = true ∨
        ∃ d, fz w content = some d ∧ d < 100 := by
  intro ws
  induction ws with
  | nil => intro _ w hw; simp at hw
  | cons w0 rest ih =>
    intro h w hw
    unfold scanWords at h
    by_cases hc : containsSub content w0
    · rw [if_pos hc] at h
      rcases List.mem_cons.mp hw with h1 | h2
      · exact Or.inl (h1 ▸ hc)
      · exact ih (Nat.succ_injective h) w h2
    · rw [if_neg hc] at h
      cases hf : fz w0 content with
      | none =>
        rw [hf] at h
        dsimp only at h
        rw [List.length_cons] at h
        have := scanWords_matched_le fz content rest
        omega
      | some d =>
        rw [hf] at h
        dsimp only at h
        by_cases hd : d < 100
        · rw [if_pos hd] at h
          rcases List.mem_cons.mp hw with h1 | h2
          · exact Or.inr ⟨d, h1 ▸ hf, hd⟩
          · exact ih (Nat.succ_injective h) w h2
        · rw [if_neg hd] at h
          rw [List.length_cons] at h
          have := scanWords_matched_le fz content rest
          omega

/-- C1: for every pool, every fuzzy matcher and every non-empty query, a
pool entry's content appears in the search result only if every
whitespace-separated lowercased query word matched that entry: each word is
either a literal substring of the lowercased content, or its best
approximate match there has distance strictly below 100. -/
theorem C1_all_words_matched (fz : Str → Str → Option Nat)
    (searchPool : List Prompt) (query : Str) (hq : query ≠ []) (c : Str)
    (hc : c ∈ searchInPool fz searchPool query) :
    ∃ p ∈ searchPool, p.Content = c ∧
      ∀ w ∈ fields (toLower query),
        containsSub (toLower p.Content) w = true ∨
          ∃ d, fz w (toLower p.Content) = some d ∧ d < 100 := by
  unfold searchInPool at hc
  by_cases hpool : searchPool.isEmpty
  · rw [if_pos hpool] at hc
    simp at hc
  · rw [if_neg hpool] at hc
    have hqe : query.isEmpty = false := by
      cases query with
      | nil => exact absurd rfl hq
      | cons a as => rfl
    rw [hqe] at hc
    simp only [Bool.false_eq_true, if_false] at hc
    by_cases hw : (fields (toLower query)).isEmpty
    · rw [if_pos hw] at hc
      simp at hc
    · rw [if_neg hw] at hc
      rcases List.mem_map.mp hc with ⟨mr, hmr, hcontent⟩
      have hmr2 : mr ∈ searchMatches fz searchPool (fields (toLower query)) :=
        mem_insertionSortByScore mr _ hmr
      unfold searchMatches at hmr2
      rcases List.mem_filterMap.mp hmr2 with ⟨ip, hip, hsome⟩
      by_cases hcond :
          (scanWords fz (toLower ip.2.Content) (fields (toLower query))).2 =
            (fields (toLower query)).length
      · rw [if_pos hcond] at hsome
        have hmreq : mr = ⟨ip.2.Content,
            (scanWords fz (toLower ip.2.Content) (fields (toLower query))).1, ip.1⟩ :=
          (Option.some.injEq _ _).mp hsome |>.symm ▸ (Option.some.inj hsome).symm
        have hpmem : ip.2 ∈ searchPool := by
          have : (ip.1, ip.2) ∈ searchPool.enum := by
            simpa using hip
          exact mem_of_mem_enumFrom searchPool 0 ip.1 ip.2 (by simpa [List.enum] using this)
        refine ⟨ip.2, hpmem, ?_, ?_⟩
        · rw [← hcontent, hmreq]
        · exact scanWords_all_matched fz (toLower ip.2.Content) _ hcond
      · rw [if_neg hcond] at hsome
        exact absurd hsome (by simp)

theorem splitOnChar_no_sep (sep : Char) (s : Str) (h : sep ∉ s) :
    splitOnChar sep s = [s] := by
  induction s with
  | nil => rfl
  | cons c cs ih =>
    have hrest : sep ∉ cs := fun hmem => h (List.mem_cons_of_mem c hmem)
    have hc : ¬((c == sep) = true) := by
      simp only [beq_iff_eq]
      intro heq
      exact h (heq ▸ List.mem_cons_self c cs)
    unfold splitOnChar
    rw [if_neg hc, ih hrest]

theorem flatMapCongr {α β : Type _} (l : List α) (f g : α → List β)
    (h : ∀ a ∈ l, f a = g a) : l.flatMap f = l.flatMap g := by
  induction l with
  | nil => rfl
  | cons a as ih =>
    rw [List.flatMap_cons, List.flatMap_cons, h a (List.mem_cons_self a as),
      ih (fun b hb => h b (List.mem_cons_of_mem a hb))]

theorem searchPoolBySingleSection_tags (data : PromptData) (s : Str) :
    searchPoolBySingleSection data s = data.Sections.flatMap (fun sec =>
      if sec.Headings ≠ [] ∧ sec.Headings.getLastD [] = s then
        nonBlankPrompts sec.Lines (sec.Headings.getLastD [])
      else []) := by
  unfold searchPoolBySingleSection
  refine flatMapCongr data.Sections _ _ ?_
  intro sec _
  by_cases h : sec.Headings ≠ [] ∧ sec.Headings.getLastD [] = s
  · rw [if_pos h, if_pos h, h.2]
  · rw [if_neg h, if_neg h]

theorem searchPoolByParentSection_guard (data : PromptData) (s : Str) :
    searchPoolByParentSection data s = data.Sections.flatMap (fun sec =>
      if s ∈ sec.Headings.dropLast then
        nonBlankPrompts sec.Lines (sec.Headings.getLastD [])
      else []) := by
  unfold searchPoolByParentSection
  refine flatMapCongr data.Sections _ _ ?_
  intro sec _
  by_cases h : s ∈ sec.Headings.dropLast
  · have hlen : 1 < sec.Headings.length := by
      match hs : sec.Headings with
      | [] => rw [hs] at h; simp at h
      | [a] => rw [hs] at h; simp at h
      | a :: b :: rest => simp [List.length_cons]
    rw [if_pos ⟨hlen, h⟩, if_pos h]
  · rw [if_neg (fun hc => h hc.2), if_neg h]

/-- C6 as stated fails on the code: the code trims the comma-free selector
before comparing it with headings.  For the document with the single section
Headings = ["T", "x"], Lines = ["line"] and the selector " x" (with a
leading space), the code returns the section's line, while the
claim-described procedure (which compares the untrimmed selector) returns
the empty pool. -/
theorem C6_counterexample :
    generateSearchPool ⟨[⟨[("T").data, ("x").data], [("line").data]⟩]⟩ (" x").data =
        [⟨("line").data, ("x").data⟩] ∧
      selectPoolSingleSpec ⟨[⟨[("T").data, ("x").data], [("line").data]⟩]⟩ (" x").data = [] ∧
      ([⟨("line").data, ("x").data⟩] : List Prompt) ≠ [] := by
  refine ⟨by decide, by decide, by decide⟩

/-- C6 (amended): for every document and every comma-free non-empty section
selector, pool selection behaves as the claim describes with the selector
replaced by its whitespace-trimmed form: first the non-blank lines of every
section whose deepest heading equals the trimmed selector; if and only if
that yields at least one line it is the pool; otherwise the non-blank lines
of every section in which the trimmed selector appears among the non-deepest
headings, tagged with each section's own deepest heading. -/
theorem C6_single_selector_amended (data : PromptData) (sel : Str)
    (h1 : sel ≠ []) (h2 : ',' ∉ sel) :
    generateSearchPool data sel = selectPoolSingleSpec data (trimSpace sel) := by
  unfold generateSearchPool
  rw [if_neg h1, splitOnChar_no_sep ',' sel h2]
  dsimp only [List.map, List.headD]
  rw [if_neg (by simp)]
  unfold selectPoolSingleSpec
  rw [searchPoolBySingleSection_tags data (trimSpace sel),
    searchPoolByParentSection_guard data (trimSpace sel)]

theorem mem_nonBlankPrompts (p : Prompt) (lines : List Str) (tag : Str)
    (h : p ∈ nonBlankPrompts lines tag) : trimSpace p.Content ≠ [] := by
  unfold nonBlankPrompts at h
  rcases List.mem_map.mp h with ⟨line, hline, rfl⟩
  have hf := (List.mem_filter.mp hline).2
  simpa using hf

theorem searchPoolBySectionPath_non_blank (data : PromptData) (path : List Str)
    (p : Prompt) (h : p ∈ searchPoolBySectionPath data path) :
    trimSpace p.Content ≠ [] := by
  unfold searchPoolBySectionPath at h
  rcases List.mem_flatMap.mp h with ⟨sec, _, hp⟩
  split at hp
  · exact mem_nonBlankPrompts p _ _ hp
  · simp at hp

theorem searchPoolBySingleSection_non_blank (data : PromptData) (s : Str)
    (p : Prompt) (h : p ∈ searchPoolBySingleSection data s) :
    trimSpace p.Content ≠ [] := by
  unfold searchPoolBySingleSection at h
  rcases List.mem_flatMap.mp h with ⟨sec, _, hp⟩
  split at hp
  · exact mem_nonBlankPrompts p _ _ hp
  · simp at hp

theorem searchPoolByParentSection_non_blank (data : PromptData) (s : Str)
    (p : Prompt) (h : p ∈ searchPoolByParentSection data s) :
    trimSpace p.Content ≠ [] := by
  unfold searchPoolByParentSection at h
  rcases List.mem_flatMap.mp h with ⟨sec, _, hp⟩
  split at hp
  · exact mem_nonBlankPrompts p _ _ hp
  · simp at hp

theorem searchPoolAllPrompts_non_blank (data : PromptData)
    (p : Prompt) (h : p ∈ searchPoolAllPrompts data) :
    trimSpace p.Content ≠ [] := by
  unfold searchPoolAllPrompts at h
  rcases List.mem_flatMap.mp h with ⟨sec, _, hp⟩
  split at hp
  · exact mem_nonBlankPrompts p _ _ hp
  · simp at hp

/-- C8: for every document and every section selector (empty,
comma-separated nested path, or single name), every Prompt placed in the
search pool has content that is non-empty after trimming surrounding
whitespace. -/
theorem C8_pool_non_blank (data : PromptData) (sel : Str) (p : Prompt)
    (h : p ∈ generateSearchPool data sel) : trimSpace p.Content ≠ [] := by
  unfold generateSearchPool at h
  split at h
  · exact searchPoolAllPrompts_non_blank data p h
  · split at h
    · exact searchPoolBySectionPath_non_blank data _ p h
    · split at h
      · exact searchPoolBySingleSection_non_blank data _ p h
      · exact searchPoolByParentSection_non_blank data _ p h

theorem dropWhile_append_of_eq_nil {α : Type _} (p : α → Bool) (xs ys : List α)
    (h : xs.dropWhile p = []) : (xs ++ ys).dropWhile p = ys.dropWhile p := by
  induction xs with
  | nil => rfl
  | cons a as ih =>
    rw [List.dropWhile_cons] at h
    by_cases hp : p a = true
    · rw [if_pos hp] at h
      rw [List.cons_append, List.dropWhile_cons, if_pos hp]
      exact ih h
    · rw [if_neg hp] at h
      exact absurd h (by simp)

theorem dropWhile_append_of_ne_nil {α : Type _} (p : α → Bool) (xs ys : List α)
    (h : xs.dropWhile p ≠ []) : (xs ++ ys).dropWhile p = xs.dropWhile p ++ ys := by
  induction xs with
  | nil => exact absurd rfl h
  | cons a as ih =>
    by_cases hp : p a = true
    · have h2 : as.dropWhile p ≠ [] := by
        rw [List.dropWhile_cons, if_pos hp] at h
        exact h
      rw [List.cons_append, List.dropWhile_cons, if_pos hp, ih h2,
        List.dropWhile_cons, if_pos hp]
    · rw [List.cons_append, List.dropWhile_cons, if_neg hp,
        List.dropWhile_cons, if_neg hp, List.cons_append]

theorem head_not_of_dropWhile {α : Type _} (p : α → Bool) :
    ∀ (l : List α) (a : α) (rest : List α), l.dropWhile p = a :: rest → p a = false := by
  intro l
  induction l with
  | nil => intro a rest h; simp at h
  | cons b bs ih =>
    intro a rest h
    rw [List.dropWhile_cons] at h
    by_cases hp : p b = true
    · rw [if_pos hp] at h
      exact ih a rest h
    · rw [if_neg hp] at h
      injection h with h1 _
      subst h1
      cases hb : p b with
      | false => rfl
      | true => exact absurd hb hp

theorem dropWhile_idem {α : Type _} (p : α → Bool) (l : List α) :
    (l.dropWhile p).dropWhile p = l.dropWhile p := by
  cases h : l.dropWhile p with
  | nil => rfl
  | cons a rest =>
    rw [List.dropWhile_cons, if_neg]
    rw [head_not_of_dropWhile p l a rest h]
    simp

theorem trimLeft_cons_of_space (c : Char) (s : Str) (h : isSpace c = true) :
    trimLeft (c :: s) = trimLeft s := by
  unfold trimLeft
  rw [List.dropWhile_cons, if_pos h]

theorem trimLeft_cons_of_not_space (c : Char) (s : Str) (h : ¬ isSpace c = true) :
    trimLeft (c :: s) = c :: s := by
  unfold trimLeft
  rw [List.dropWhile_cons, if_neg h]

theorem trimRight_eq_nil_iff (s : Str) :
    trimRight s = [] ↔ ∀ c ∈ s, isSpace c = true := by
  unfold trimRight
  rw [List.reverse_eq_nil_iff, List.dropWhile_eq_nil_iff]
  constructor
  · intro h c hc
    exact h c (List.mem_reverse.mpr hc)
  · intro h c hc
    exact h c (List.mem_reverse.mp hc)

theorem trimRight_cons (c : Char) (s : Str) :
    trimRight (c :: s) =
      if trimRight s = [] then (if isSpace c = true then [] else [c])
      else c :: trimRight s := by
  unfold trimRight
  rw [List.reverse_cons]
  by_cases h : s.reverse.dropWhile isSpace = []
  · rw [dropWhile_append_of_eq_nil isSpace s.reverse [c] h]
    have h2 : (s.reverse.dropWhile isSpace).reverse = [] := by
      rw [h]
      rfl
    rw [if_pos h2, List.dropWhile_cons]
    by_cases hc : isSpace c = true
    · rw [if_pos hc, if_pos hc]
      rfl
    · rw [if_neg hc, if_neg hc]
      rfl
  · rw [dropWhile_append_of_ne_nil isSpace s.reverse [c] h]
    have h2 : (s.reverse.dropWhile isSpace).reverse ≠ [] := by
      intro hx
      exact h (by simpa [List.reverse_eq_nil_iff] using hx)
    rw [if_neg h2, List.reverse_append]
    simp

theorem trimRight_idem (s : Str) : trimRight (trimRight s) = trimRight s := by
  unfold trimRight
  rw [List.reverse_reverse, dropWhile_idem]

theorem trimLeft_trimRight_comm (s : Str) :
    trimLeft (trimRight s) = trimRight (trimLeft s) := by
  induction s with
  | nil => rfl
  | cons c cs ih =>
    rw [trimRight_cons]
    by_cases h : trimRight cs = []
    · rw [if_pos h]
      have hnil : trimRight (trimLeft cs) = [] := by
        rw [← ih, h]
        rfl
      by_cases hc : isSpace c = true
      · rw [if_pos hc, trimLeft_cons_of_space c cs hc, hnil]
        rfl
      · rw [if_neg hc, trimLeft_cons_of_not_space c cs hc,
          trimLeft_cons_of_not_space c [] hc, trimRight_cons, if_pos h, if_neg hc]
    · rw [if_neg h]
      by_cases hc : isSpace c = true
      · rw [trimLeft_cons_of_space c (trimRight cs) hc,
          trimLeft_cons_of_space c cs hc, ih]
      · rw [trimLeft_cons_of_not_space c (trimRight cs) hc,
          trimLeft_cons_of_not_space c cs hc, trimRight_cons, if_neg h]

theorem trimSpace_cons_space (c : Char) (s : Str) (h : isSpace c = true) :
    trimSpace (c :: s) = trimSpace s := by
  unfold trimSpace
  rw [trimLeft_cons_of_space c s h]

theorem trimSpace_trimRight (s : Str) : trimSpace (trimRight s) = trimSpace s := by
  unfold trimSpace
  rw [trimLeft_trimRight_comm s, trimRight_idem]

theorem trimRight_ne_nil_of_trimSpace (s : Str) (h : trimSpace s ≠ []) :
    trimRight s ≠ [] := by
  intro hnil
  apply h
  have hall : ∀ c ∈ s, isSpace c = true := (trimRight_eq_nil_iff s).mp hnil
  have hleft : trimLeft s = [] :=
    List.dropWhile_eq_nil_iff.mpr hall
  unfold trimSpace
  rw [hleft]
  rfl

theorem trimRight_last (s : Str) :
    trimRight s = [] ∨ ∃ y c, trimRight s = y ++ [c] ∧ isSpace c = false := by
  unfold trimRight
  cases h : s.reverse.dropWhile isSpace with
  | nil =>
    left
    rfl
  | cons a rest =>
    right
    refine ⟨rest.reverse, a, ?_, head_not_of_dropWhile isSpace s.reverse a rest h⟩
    rw [List.reverse_cons]

theorem drop_succ_of_drop_cons {α : Type _} :
    ∀ (k : Nat) (l : List α) (a : α) (u : List α),
      l.drop k = a :: u → l.drop (k + 1) = u := by
  intro k
  induction k with
  | zero =>
    intro l a u h
    rw [List.drop_zero] at h
    rw [h]
    rfl
  | succ n ih =>
    intro l a u h
    cases l with
    | nil => simp at h
    | cons b bs =>
      rw [List.drop_succ_cons] at h
      rw [List.drop_succ_cons]
      exact ih bs a u h

theorem countLeadingHashes_pos (s : Str) (h : 1 ≤ countLeadingHashes s) :
    ∃ rest, s = '#' :: rest := by
  cases s with
  | nil => simp [countLeadingHashes] at h
  | cons c rest =>
    by_cases hc : c = '#'
    · exact ⟨rest, by rw [hc]⟩
    · exfalso
      unfold countLeadingHashes at h
      rw [if_neg hc] at h
      exact absurd h (by omega)

theorem prefixOf_hash (t : Str) (h : ['#'].isPrefixOf t = true) :
    ∃ rest, t = '#' :: rest := by
  cases t with
  | nil => simp [List.isPrefixOf] at h
  | cons c rest =>
    simp only [List.isPrefixOf, Bool.and_eq_true, beq_iff_eq] at h
    exact ⟨rest, by rw [h.1]⟩

theorem trimSpace_drop_space_ne_nil (line : Str) (k : Nat) (u : Str)
    (h : (trimSpace line).drop k = ' ' :: u) : u ≠ [] := by
  intro hu
  subst hu
  have h1 : trimSpace line = (trimSpace line).take k ++ [' '] := by
    conv_lhs => rw [← List.take_append_drop k (trimSpace line)]
    rw [h]
  have h2 : (trimSpace line).getLast? = some ' ' := by
    rw [h1]
    exact List.getLast?_concat _
  rcases trimRight_last (trimLeft line) with h3 | ⟨y, c, hyc, hc⟩
  · have : trimSpace line = [] := h3
    rw [this] at h2
    simp at h2
  · have h4 : trimSpace line = y ++ [c] := hyc
    rw [h4, List.getLast?_concat] at h2
    have h5 : c = ' ' := Option.some.inj h2
    rw [h5] at hc
    simp [isSpace] at hc

theorem parseHeading_char (line : Str) :
    (∃ u, (trimSpace line).drop (countLeadingHashes (trimSpace line)) = ' ' :: u ∧
        1 ≤ countLeadingHashes (trimSpace line) ∧
        parseHeading line = (countLeadingHashes (trimSpace line), trimSpace u)) ∨
      (parseHeading line = (0, []) ∧
        ¬(1 ≤ countLeadingHashes (trimSpace line) ∧
          ∃ u, (trimSpace line).drop (countLeadingHashes (trimSpace line)) = ' ' :: u)) := by
  unfold parseHeading
  by_cases hp : ['#'].isPrefixOf (trimSpace line) = true
  · rw [if_pos hp]
    obtain ⟨rest, hrest⟩ := prefixOf_hash _ hp
    have hk : 1 ≤ countLeadingHashes (trimSpace line) := by
      rw [hrest]
      unfold countLeadingHashes
      rw [if_pos rfl]
      omega
    split
    next u heq =>
      left
      exact ⟨u, heq, hk, by rw [trimSpace_cons_space ' ' u (by decide)]⟩
    next hne =>
      right
      refine ⟨rfl, ?_⟩
      rintro ⟨_, u, hu⟩
      exact hne u hu
  · rw [if_neg hp]
    right
    refine ⟨rfl, ?_⟩
    rintro ⟨hk, _⟩
    obtain ⟨rest, hrest⟩ := countLeadingHashes_pos _ hk
    apply hp
    rw [hrest]
    simp [List.isPrefixOf]

/-- C5: a line is classified as a heading iff, after trimming surrounding
whitespace, it starts with one or more '#' characters immediately followed
by a single space and at least one more character; then the level is the
count of leading '#' characters and the text is the trimmed remainder after
the space.  A line starting with '#' but lacking the required space is not a
heading and the parser stores it verbatim as a body line of the current
section. -/
theorem C5_heading_classification (line : Str) (st : ParseState) :
    ((parseHeading line).1 ≠ 0 ↔
      (1 ≤ countLeadingHashes (trimSpace line) ∧
        ∃ u, (trimSpace line).drop (countLeadingHashes (trimSpace line)) = ' ' :: u ∧
          u ≠ [])) ∧
    ((parseHeading line).1 ≠ 0 →
      parseHeading line = (countLeadingHashes (trimSpace line),
        trimSpace ((trimSpace line).drop (countLeadingHashes (trimSpace line) + 1)))) ∧
    ((parseHeading line).1 = 0 → parseHeading line = (0, [])) ∧
    ((parseHeading line).1 = 0 →
      parseStep st line =
        ⟨st.sections, ⟨st.current.Headings, st.current.Lines ++ [line]⟩,
          st.headingStack⟩) := by
  have hdropsucc : ∀ u, (trimSpace line).drop (countLeadingHashes (trimSpace line)) =
      ' ' :: u → (trimSpace line).drop (countLeadingHashes (trimSpace line) + 1) = u := by
    intro u hu
    exact drop_succ_of_drop_cons _ _ _ _ hu
  refine ⟨?_, ?_, ?_, ?_⟩
  · constructor
    · intro hne
      rcases parseHeading_char line with ⟨u, heq, hk, hres⟩ | ⟨hres, _⟩
      · exact ⟨hk, u, heq, trimSpace_drop_space_ne_nil line _ u heq⟩
      · rw [hres] at hne
        simp at hne
    · rintro ⟨hk, u, heq, _⟩
      rcases parseHeading_char line with ⟨u2, _, hk2, hres⟩ | ⟨_, hneg⟩
      · rw [hres]
        simp
        omega
      · exact absurd ⟨hk, u, heq⟩ hneg
  · intro hne
    rcases parseHeading_char line with ⟨u, heq, hk, hres⟩ | ⟨hres, _⟩
    · rw [hres, hdropsucc u heq]
    · rw [hres] at hne
      simp at hne
  · intro h0
    rcases parseHeading_char line with ⟨u, heq, hk, hres⟩ | ⟨hres, _⟩
    · rw [hres] at h0
      simp at h0
      omega
    · exact hres
  · intro h0
    unfold parseStep
    rw [if_neg (by omega)]

theorem countLeadingHashes_replicate (k : Nat) (u : Str) :
    countLeadingHashes (List.replicate k '#' ++ ' ' :: u) = k := by
  induction k with
  | zero =>
    simp only [List.replicate, List.nil_append]
    unfold countLeadingHashes
    rw [if_neg (by decide)]
  | succ n ih =>
    rw [List.replicate_succ, List.cons_append]
    unfold countLeadingHashes
    rw [if_pos rfl, ih]

theorem trimSpace_headerLine (d : Nat) (hd : 1 ≤ d) (text : Str)
    (ht : trimRight text ≠ []) :
    trimSpace (headerLine d text) = List.replicate d '#' ++ ' ' :: trimRight text := by
  obtain ⟨k, rfl⟩ : ∃ k, d = k + 1 := ⟨d - 1, by omega⟩
  have hrevdrop : text.reverse.dropWhile isSpace ≠ [] := by
    intro hx
    apply ht
    unfold trimRight
    rw [hx]
    rfl
  have hBrev : ((' ' :: text).reverse).dropWhile isSpace =
      text.reverse.dropWhile isSpace ++ [' '] := by
    rw [List.reverse_cons]
    exact dropWhile_append_of_ne_nil isSpace text.reverse [' '] hrevdrop
  have hBne : ((' ' :: text).reverse).dropWhile isSpace ≠ [] := by
    rw [hBrev]
    simp
  have htrimB : trimRight (' ' :: text) = ' ' :: trimRight text := by
    unfold trimRight
    rw [hBrev, List.reverse_append]
    rfl
  unfold headerLine trimSpace
  have hleft : trimLeft (List.replicate (k + 1) '#' ++ [' '] ++ text) =
      List.replicate (k + 1) '#' ++ [' '] ++ text := by
    rw [List.replicate_succ, List.cons_append, List.cons_append]
    exact trimLeft_cons_of_not_space '#' _ (by decide)
  rw [hleft]
  have happ : List.replicate (k + 1) '#' ++ [' '] ++ text =
      List.replicate (k + 1) '#' ++ (' ' :: text) := by
    rw [List.append_assoc]
    rfl
  rw [happ]
  unfold trimRight
  rw [List.reverse_append, dropWhile_append_of_ne_nil isSpace _ _ hBne,
    List.reverse_append, List.reverse_reverse]
  rw [hBrev, List.reverse_append]
  rfl

/-- C9: heading serialization is the exact inverse of heading detection: for
every depth of at least 1 and every heading text that is non-empty after
trimming and contains no line break, parsing the serialized line (the depth
in '#' characters, a single space, then the text) yields the depth as level
and the trimmed heading text. -/
theorem C9_serialization_inverse (d : Nat) (text : Str) (hd : 1 ≤ d)
    (ht : trimSpace text ≠ []) (_hnl : '\n' ∉ text) :
    parseHeading (headerLine d text) = (d, trimSpace text) := by
  have htr : trimRight text ≠ [] := trimRight_ne_nil_of_trimSpace text ht
  have hts := trimSpace_headerLine d hd text htr
  obtain ⟨k, rfl⟩ : ∃ k, d = k + 1 := ⟨d - 1, by omega⟩
  unfold parseHeading
  rw [hts]
  have hpre : ['#'].isPrefixOf
      (List.replicate (k + 1) '#' ++ ' ' :: trimRight text) = true := by
    rw [List.replicate_succ, List.cons_append]
    simp [List.isPrefixOf]
  rw [if_pos hpre, countLeadingHashes_replicate (k + 1) (trimRight text)]
  have hdrop : (List.replicate (k + 1) '#' ++ ' ' :: trimRight text).drop (k + 1) =
      ' ' :: trimRight text := by
    have := List.drop_left (List.replicate (k + 1) '#') (' ' :: trimRight text)
    rwa [List.length_replicate] at this
  rw [hdrop]
  show (k + 1, trimSpace (' ' :: trimRight text)) = (k + 1, trimSpace text)
  rw [trimSpace_cons_space ' ' (trimRight text) (by decide), trimSpace_trimRight]

theorem C1_witness :
    ∃ p ∈ [(⟨("hello world").data, ("s").data⟩ : Prompt)],
      p.Content = ("hello world").data ∧
        ∀ w ∈ fields (toLower ("hello").data),
          containsSub (toLower p.Content) w = true ∨
            ∃ d, fzNone w (toLower p.Content) = some d ∧ d < 100 :=
  C1_all_words_matched fzNone [⟨("hello world").data, ("s").data⟩] ("hello").data
    (by decide) ("hello world").data (by decide)

theorem C3_witness :
    (⟨[("a").data], [("y").data]⟩ : Section) ∈
        parseMarkdownIntoSections ("# a\ny").data ∧
      ((⟨[("a").data], [("y").data]⟩ : Section).Headings = [] ∨
        ∃ (i : Nat) (line : Str) (st : ParseState), (splitLines ("# a\ny").data)[i]? = some line ∧
          (parseTrace ("# a\ny").data)[i]? = some st ∧
          1 ≤ (parseHeading line).1 ∧
          (⟨[("a").data], [("y").data]⟩ : Section).Headings =
            updateStack st.headingStack (parseHeading line).1 (parseHeading line).2 ∧
          (⟨[("a").data], [("y").data]⟩ : Section).Headings.length =
            min (parseHeading line).1 (st.headingStack.length + 1) ∧
          ((parseHeading line).1 ≤ st.headingStack.length + 1 →
            (⟨[("a").data], [("y").data]⟩ : Section).Headings.length =
              (parseHeading line).1 ∧
            (⟨[("a").data], [("y").data]⟩ : Section).Headings =
              st.headingStack.take ((parseHeading line).1 - 1) ++
                [(parseHeading line).2])) :=
  ⟨by decide, C3_heading_path_amended ("# a\ny").data ⟨[("a").data], [("y").data]⟩
    (by decide)⟩

theorem C6_witness :
    generateSearchPool ⟨[⟨[("T").data, ("x").data], [("line").data]⟩]⟩ ("x").data =
      selectPoolSingleSpec ⟨[⟨[("T").data, ("x").data], [("line").data]⟩]⟩
        (trimSpace ("x").data) :=
  C6_single_selector_amended ⟨[⟨[("T").data, ("x").data], [("line").data]⟩]⟩
    ("x").data (by decide) (by decide)

theorem C7_witness :
    searchInPool fzNone [(⟨("a").data, ("s").data⟩ : Prompt)] [] =
        ([(⟨("a").data, ("s").data⟩ : Prompt)]).map (fun p => p.Content) ∧
      (searchInPool fzNone [(⟨("a").data, ("s").data⟩ : Prompt)] []).length =
        ([(⟨("a").data, ("s").data⟩ : Prompt)]).length :=
  C7_empty_query_passthrough fzNone [⟨("a").data, ("s").data⟩] (by decide)

theorem C8_witness :
    trimSpace (⟨("line").data, ("x").data⟩ : Prompt).Content ≠ [] :=
  C8_pool_non_blank ⟨[⟨[("T").data, ("x").data], [("line").data]⟩]⟩ ("x").data
    ⟨("line").data, ("x").data⟩ (by decide)

theorem C9_witness :
    parseHeading (headerLine 2 ("hi").data) = (2, trimSpace ("hi").data) :=
  C9_serialization_inverse 2 ("hi").data (by decide) (by decide) (by decide)

theorem C10_witness :
    searchInPool fzNone [(⟨("a").data, ("s").data⟩ : Prompt)] (" ").data = [] :=
  C10_whitespace_query fzNone [⟨("a").data, ("s").data⟩] (" ").data
    (by decide) (by decide)

end prompt
